import Mathlib

/-!
Verification development for the confined file-access layer:
`os.Root` / `rootFS` (src/src/os/root.go) and the prefixed-subtree
wrapper `subFS` (src/src/io/fs/openfile.go).

Modelling conventions:
* We model the Linux/Unix build (`runtime.GOOS != "windows"`), so the
  Windows-only branches (`rootCleanPath`, the backslash check in
  `isValidRootFSPath`) are dead code and the path separator is `/`.
* Go strings are modelled as Lean `String`s; Go byte indexing is
  modelled by `List Char` indexing (all concrete inputs used here are
  ASCII, where these coincide).
* Platform calls (the actual filesystem) are out of scope for the
  sources under verification; each wrapper is parameterised over an
  oracle structure describing the underlying store's replies, and the
  wrappers additionally return the list of calls issued to the
  underlying store, so that "fails without issuing any underlying
  call" is expressible.
* Fallible Go functions returning `(T, error)` become `Except` or a
  pair with an `Option` error, mirroring the Go shape.
-/

namespace GoFS

/-- `os.IsPathSeparator` on Linux: only `/` is a separator. -/
def isSep (c : Char) : Bool := c = '/'

/-! ### Small list helpers used throughout -/

theorem length_dropWhile_le (p : Char → Bool) (l : List Char) :
    (l.dropWhile p).length ≤ l.length := by
  induction l with
  | nil => simp [List.dropWhile]
  | cons c cs ih =>
    by_cases h : p c
    · simp only [List.dropWhile, h]
      exact Nat.le_succ_of_le ih
    · simp only [List.dropWhile, h]
      simp

theorem head_dropWhile_false {p : Char → Bool} :
    ∀ {l : List Char} {x : Char} {xs : List Char},
      l.dropWhile p = x :: xs → p x = false := by
  intro l
  induction l with
  | nil => intro x xs h; simp [List.dropWhile] at h
  | cons c cs ih =>
    intro x xs h
    by_cases hc : p c
    · simp only [List.dropWhile, hc] at h
      exact ih h
    · simp only [List.dropWhile, hc] at h
      injection h with h1 h2
      rw [← h1]
      simpa using hc

theorem takeWhile_append_of_all {p : Char → Bool} {u : List Char} (v : List Char)
    (hu : ∀ x ∈ u, p x = true) : (u ++ v).takeWhile p = u ++ v.takeWhile p := by
  induction u with
  | nil => simp
  | cons c cs ih =>
    have hc : p c = true := hu c (by simp)
    simp only [List.cons_append, List.takeWhile_cons, hc, if_true]
    rw [ih (fun x hx => hu x (by simp [hx]))]

theorem takeWhile_append_of_stop {p : Char → Bool} {u : List Char} (v : List Char)
    (hu : ∃ x ∈ u, p x = false) : (u ++ v).takeWhile p = u.takeWhile p := by
  induction u with
  | nil => obtain ⟨x, hx, _⟩ := hu; simp at hx
  | cons c cs ih =>
    by_cases hc : p c
    · have : ∃ x ∈ cs, p x = false := by
        obtain ⟨x, hx, hpx⟩ := hu
        rcases List.mem_cons.mp hx with rfl | hxs
        · rw [hc] at hpx; cases hpx
        · exact ⟨x, hxs, hpx⟩
      simp only [List.cons_append, List.takeWhile_cons, hc, if_true]
      rw [ih this]
    · simp only [List.cons_append, List.takeWhile_cons]
      rw [Bool.eq_false_iff.mpr hc]
      simp

/-! ### Path validity

`io/fs.ValidPath` itself is not among the excerpted sources (only its
callers are), so it is modelled from the spec. -/

/-- Splits a character list at `/` separators, keeping empty elements
(so `"a/"` yields `["a", ""]` and `"/a"` yields `["", "a"]`). -/
def pathElems : List Char → List (List Char)
  | [] => [[]]
  | c :: cs =>
    if isSep c then [] :: pathElems cs
    else
      match pathElems cs with
      | e :: es => (c :: e) :: es
      | [] => [[c]]

/-- Modelled from the spec: `io/fs.ValidPath` (non-excerpted collaborator;
spec §3 "Path (relative name)": an ordered sequence of non-empty path
components, no component equal to "..", no leading separator; fs.ValidPath
additionally rejects "." components, with "." itself naming the root). -/
def validPathL (l : List Char) : Bool :=
  if l = ['.'] then true
  else (pathElems l).all fun e => !(e = [] || e = ['.'] || e = ['.', '.'])

/-- Modelled from the spec: `io/fs.ValidPath` on strings. -/
def ValidPath (s : String) : Bool := validPathL s.data

/-- `isValidRootFSPath` from src/src/os/root.go (Linux: the Windows
backslash branch is dead code). -/
def isValidRootFSPath (name : String) : Bool := ValidPath name

example : ValidPath "." = true := by decide
example : ValidPath "a/b.txt" = true := by decide
example : ValidPath "../escape.txt" = false := by decide
example : ValidPath ".." = false := by decide
example : ValidPath "a/" = false := by decide
example : ValidPath "" = false := by decide

/-! ### `splitPathInRoot` (src/src/os/root.go lines 301–351)

The Go loop scans maximal runs: each outer iteration appends the
maximal non-separator run starting at `i`, then skips the following
separator run. `splitLoop` mirrors one outer iteration per recursive
call; `pre`/`suf` stand for Go's `prefix`/`suffix` arguments. -/

inductive SplitErr where
  | emptyPath
  | pathEscapes
  deriving DecidableEq, Repr

def splitLoop (l : List Char) (parts : List String) : List String × String :=
  match l with
  | [] => (parts, "")
  | c :: cs =>
    let comp := String.mk (c :: cs.takeWhile fun x => !isSep x)
    let after := cs.dropWhile fun x => !isSep x
    let seps := after.takeWhile isSep
    let rest := after.dropWhile isSep
    let parts2 := parts ++ [comp]
    if rest = [] then (parts2, String.mk seps)
    else splitLoop rest (if parts2.getLast? = some "." then parts2.dropLast else parts2)
termination_by l.length
decreasing_by
  simp only [List.length_cons]
  exact Nat.lt_succ_of_le
    (le_trans (length_dropWhile_le _ _) (length_dropWhile_le _ _))

/-- `splitPathInRoot` from src/src/os/root.go (Linux build: the
`runtime.GOOS == "windows"` branch is not taken). -/
def splitPathInRoot (s : String) (pre suf : List String) :
    Except SplitErr (List String × String) :=
  if s.data = [] then .error .emptyPath
  else if isSep s.data.headI then .error .pathEscapes
  else
    let r := splitLoop s.data pre
    let parts := if suf ≠ [] ∧ r.1.getLast? = some "." then r.1.dropLast else r.1
    .ok (parts ++ suf, r.2)

/-! ### Reference splitter (spec §4.1)

`comps` splits a character list into its maximal non-separator runs
(the raw components), `dotClean` removes `"."` components except a
final one, `trailSeps` is the maximal trailing separator run, and
`dropFinalDot` removes a final `"."` (used when a suffix is joined).
These are the spec-level descriptions that `splitPathInRoot` is
proved to refine. -/

def compsGo : List Char → List Char → List String
  | [], acc => if acc = [] then [] else [String.mk acc]
  | c :: cs, acc =>
    if isSep c then
      if acc = [] then compsGo cs [] else String.mk acc :: compsGo cs []
    else compsGo cs (acc ++ [c])

/-- Raw components: maximal non-separator runs of `l`, in order. -/
def comps (l : List Char) : List String := compsGo l []

/-- Removes `"."` components, except in the last component. -/
def dotClean : List String → List String
  | [] => []
  | [c] => [c]
  | c :: rest => (if c = "." then [] else [c]) ++ dotClean rest

/-- The maximal run of separators at the end of `l`, verbatim. -/
def trailSeps (l : List Char) : String :=
  String.mk ((l.reverse.takeWhile isSep).reverse)

/-- Removes a trailing `"."` component. -/
def dropFinalDot (l : List String) : List String :=
  if l.getLast? = some "." then l.dropLast else l

/-- The spec-level contract of `splitPathInRoot` on a valid (nonempty,
relative) path: prefix, then the raw components with `"."` dropped
except finally (a final `"."` also dropped when a suffix is joined),
then the suffix; trailing separators returned verbatim. -/
def refSplit (l : List Char) (pre suf : List String) : List String × String :=
  let core := dotClean (comps l)
  (pre ++ (if suf = [] then core else dropFinalDot core) ++ suf, trailSeps l)

theorem compsGo_sep_all : ∀ {l : List Char}, (∀ x ∈ l, isSep x = true) →
    compsGo l [] = [] := by
  intro l
  induction l with
  | nil => intro _; simp [compsGo]
  | cons c cs ih =>
    intro h
    have hc : isSep c = true := h c (by simp)
    simp only [compsGo, hc, if_true]
    exact ih fun x hx => h x (by simp [hx])

theorem compsGo_sep_pre : ∀ {ss : List Char} (rest : List Char),
    (∀ x ∈ ss, isSep x = true) → compsGo (ss ++ rest) [] = compsGo rest [] := by
  intro ss
  induction ss with
  | nil => intro rest _; simp
  | cons c cs ih =>
    intro rest h
    have hc : isSep c = true := h c (by simp)
    simp only [List.cons_append, compsGo, hc, if_true, List.append_eq]
    exact ih rest fun x hx => h x (by simp [hx])

theorem compsGo_ne_nil : ∀ (l acc : List Char), acc ≠ [] → compsGo l acc ≠ [] := by
  intro l
  induction l with
  | nil => intro acc h; simp [compsGo, h]
  | cons c cs ih =>
    intro acc h
    by_cases hc : isSep c
    · simp [compsGo, hc, h]
    · simp only [compsGo, hc, if_false, Bool.false_eq_true]
      exact ih (acc ++ [c]) (by simp)

theorem comps_cons_ne_nil {c : Char} {cs : List Char} (hc : isSep c = false) :
    comps (c :: cs) ≠ [] := by
  simp only [comps, compsGo, hc, Bool.false_eq_true, if_false]
  exact compsGo_ne_nil cs [c] (by simp)

theorem compsGo_all_sep_acc : ∀ (seps acc : List Char),
    (∀ x ∈ seps, isSep x = true) → acc ≠ [] → compsGo seps acc = [String.mk acc] := by
  intro seps
  induction seps with
  | nil => intro acc _ h; simp [compsGo, h]
  | cons s ss ih =>
    intro acc h hacc
    have hs : isSep s = true := h s (by simp)
    simp only [compsGo, hs, if_true, hacc, if_false]
    rw [compsGo_sep_all fun x hx => h x (by simp [hx])]

theorem compsGo_last : ∀ (body : List Char) (seps acc : List Char),
    (∀ x ∈ body, isSep x = false) → (∀ x ∈ seps, isSep x = true) →
    acc ++ body ≠ [] → compsGo (body ++ seps) acc = [String.mk (acc ++ body)] := by
  intro body
  induction body with
  | nil =>
    intro seps acc _ hs hne
    simp only [List.append_nil] at hne ⊢
    exact compsGo_all_sep_acc seps acc hs hne
  | cons b bs ih =>
    intro seps acc hb hs _
    have hbsep : isSep b = false := hb b (by simp)
    simp only [List.cons_append, compsGo, hbsep, Bool.false_eq_true, if_false, List.append_eq]
    rw [ih seps (acc ++ [b]) (fun x hx => hb x (by simp [hx])) hs (by simp)]
    simp

theorem compsGo_step : ∀ (body : List Char) (seps rest acc : List Char),
    (∀ x ∈ body, isSep x = false) → (∀ x ∈ seps, isSep x = true) →
    seps ≠ [] → acc ++ body ≠ [] →
    compsGo (body ++ seps ++ rest) acc = String.mk (acc ++ body) :: compsGo rest [] := by
  intro body
  induction body with
  | nil =>
    intro seps rest acc _ hs hsne hne
    simp only [List.append_nil] at hne
    cases seps with
    | nil => exact absurd rfl hsne
    | cons s ss =>
      have hssep : isSep s = true := hs s (by simp)
      simp only [List.nil_append, List.cons_append, compsGo, hssep, if_true, hne, if_false, List.append_eq]
      rw [compsGo_sep_pre rest fun x hx => hs x (by simp [hx])]
      simp
  | cons b bs ih =>
    intro seps rest acc hb hs hsne _
    have hbsep : isSep b = false := hb b (by simp)
    simp only [List.cons_append, compsGo, hbsep, Bool.false_eq_true, if_false, List.append_eq]
    rw [ih seps rest (acc ++ [b]) (fun x hx => hb x (by simp [hx])) hs hsne (by simp)]
    simp

theorem takeWhile_rev_nonsep {body : List Char} (hb : ∀ x ∈ body, isSep x = false) :
    body.reverse.takeWhile isSep = [] := by
  cases hrev : body.reverse with
  | nil => simp
  | cons x xs =>
    have hx : x ∈ body := by
      have hmem : x ∈ body.reverse := by rw [hrev]; simp
      simpa using hmem
    simp [List.takeWhile_cons, hb x hx]

theorem trailSeps_last (body seps : List Char)
    (hb : ∀ x ∈ body, isSep x = false) (hs : ∀ x ∈ seps, isSep x = true) :
    trailSeps (body ++ seps) = String.mk seps := by
  unfold trailSeps
  rw [List.reverse_append]
  rw [takeWhile_append_of_all _ (by intro x hx; exact hs x (by simpa using hx))]
  rw [takeWhile_rev_nonsep hb]
  simp

theorem trailSeps_cont (u : List Char) {r0 : Char} {rs : List Char}
    (hr0 : isSep r0 = false) :
    trailSeps (u ++ (r0 :: rs)) = trailSeps (r0 :: rs) := by
  unfold trailSeps
  rw [List.reverse_append]
  rw [takeWhile_append_of_stop _ ⟨r0, by simp, hr0⟩]

theorem dotClean_ne_nil : ∀ {l : List String}, l ≠ [] → dotClean l ≠ [] := by
  intro l
  induction l with
  | nil => intro h; exact absurd rfl h
  | cons a t ih =>
    intro _
    cases t with
    | nil => simp [dotClean]
    | cons b t2 =>
      simp only [dotClean]
      intro hcontra
      rcases List.append_eq_nil.mp hcontra with ⟨_, h2⟩
      exact ih (by simp) h2

theorem getLast?_append_ne {α : Type} {l1 l2 : List α} (h : l2 ≠ []) :
    (l1 ++ l2).getLast? = l2.getLast? := by
  rcases List.eq_nil_or_concat l2 with rfl | ⟨L, a, rfl⟩
  · exact absurd rfl h
  · rw [List.concat_eq_append, ← List.append_assoc, List.getLast?_concat, List.getLast?_concat]

theorem dropLast_append_ne {α : Type} {l1 l2 : List α} (h : l2 ≠ []) :
    (l1 ++ l2).dropLast = l1 ++ l2.dropLast := by
  rcases List.eq_nil_or_concat l2 with rfl | ⟨L, a, rfl⟩
  · exact absurd rfl h
  · rw [List.concat_eq_append, ← List.append_assoc, List.dropLast_concat, List.dropLast_concat]

/-- One outer iteration of the Go loop agrees with the reference
splitter: on a nonempty input starting with a non-separator, the loop
yields the accumulated parts followed by the dot-cleaned raw
components, and the trailing separator run verbatim. -/
theorem splitLoop_spec : ∀ (n : Nat) (l : List Char), l.length ≤ n →
    ∀ (pre : List String) (c : Char) (cs : List Char), l = c :: cs → isSep c = false →
    splitLoop l pre = (pre ++ dotClean (comps l), trailSeps l) := by
  intro n
  induction n with
  | zero =>
    intro l hl pre c cs hcons _
    subst hcons
    simp at hl
  | succ n ih =>
    intro l hl pre c cs hcons hc
    subst hcons
    have hbody : ∀ x ∈ c :: (cs.takeWhile fun x => !isSep x), isSep x = false := by
      intro x hx
      rcases List.mem_cons.mp hx with rfl | hx2
      · exact hc
      · have h3 := List.mem_takeWhile_imp hx2
        simpa using h3
    have hseps : ∀ x ∈ ((cs.dropWhile fun x => !isSep x).takeWhile isSep), isSep x = true := by
      intro x hx
      exact List.mem_takeWhile_imp hx
    have hdecomp : cs = (cs.takeWhile fun x => !isSep x) ++ (cs.dropWhile fun x => !isSep x) :=
      (List.takeWhile_append_dropWhile ..).symm
    have hafter : (cs.dropWhile fun x => !isSep x) =
        ((cs.dropWhile fun x => !isSep x).takeWhile isSep) ++
          ((cs.dropWhile fun x => !isSep x).dropWhile isSep) :=
      (List.takeWhile_append_dropWhile ..).symm
    by_cases hrest : ((cs.dropWhile fun x => !isSep x).dropWhile isSep) = []
    · -- this is the last component: return parts and the trailing separators
      have hafter2 : (cs.dropWhile fun x => !isSep x) =
          ((cs.dropWhile fun x => !isSep x).takeWhile isSep) := by
        conv_lhs => rw [hafter, hrest]
        rw [List.append_nil]
      have hb3 : c :: cs = (c :: (cs.takeWhile fun x => !isSep x)) ++
          ((cs.dropWhile fun x => !isSep x).takeWhile isSep) := by
        rw [List.cons_append]
        congr 1
        conv_lhs => rw [hdecomp, hafter2]
      have hcomps : comps (c :: cs) = [String.mk (c :: (cs.takeWhile fun x => !isSep x))] := by
        rw [comps, hb3]
        exact compsGo_last _ _ [] hbody hseps (by simp)
      have htr : trailSeps (c :: cs) =
          String.mk ((cs.dropWhile fun x => !isSep x).takeWhile isSep) := by
        conv_lhs => rw [hb3]
        exact trailSeps_last _ _ hbody hseps
      simp only [splitLoop]
      rw [if_pos hrest, hcomps, htr]
      simp [dotClean]
    · -- more components follow: recurse
      obtain ⟨r0, rs, hr⟩ := List.exists_cons_of_ne_nil hrest
      have hr0 : isSep r0 = false := head_dropWhile_false hr
      have hafter_ne : (cs.dropWhile fun x => !isSep x) ≠ [] := by
        intro h0
        apply hrest
        rw [h0]
        rfl
      have hseps_ne : ((cs.dropWhile fun x => !isSep x).takeWhile isSep) ≠ [] := by
        obtain ⟨a, as, ha⟩ := List.exists_cons_of_ne_nil hafter_ne
        have hasep : isSep a = true := by
          have h2 := head_dropWhile_false (p := fun x => !isSep x) ha
          simpa using h2
        rw [ha]
        simp [List.takeWhile_cons, hasep]
      have hb3 : c :: cs = ((c :: (cs.takeWhile fun x => !isSep x)) ++
          ((cs.dropWhile fun x => !isSep x).takeWhile isSep)) ++
          ((cs.dropWhile fun x => !isSep x).dropWhile isSep) := by
        rw [List.append_assoc, List.cons_append]
        congr 1
        conv_lhs => rw [hdecomp, hafter]
      have hcomps : comps (c :: cs) =
          String.mk (c :: (cs.takeWhile fun x => !isSep x)) ::
            comps ((cs.dropWhile fun x => !isSep x).dropWhile isSep) := by
        rw [comps, hb3]
        have h4 := compsGo_step (c :: (cs.takeWhile fun x => !isSep x))
          ((cs.dropWhile fun x => !isSep x).takeWhile isSep)
          ((cs.dropWhile fun x => !isSep x).dropWhile isSep) [] hbody hseps hseps_ne (by simp)
        rw [h4]
        rfl
      have hcr_ne : comps ((cs.dropWhile fun x => !isSep x).dropWhile isSep) ≠ [] := by
        rw [hr]
        exact comps_cons_ne_nil hr0
      obtain ⟨x0, xs0, hx0⟩ := List.exists_cons_of_ne_nil hcr_ne
      have hdc : dotClean (comps (c :: cs)) =
          (if String.mk (c :: (cs.takeWhile fun x => !isSep x)) = "." then []
            else [String.mk (c :: (cs.takeWhile fun x => !isSep x))]) ++
          dotClean (comps ((cs.dropWhile fun x => !isSep x).dropWhile isSep)) := by
        rw [hcomps, hx0]
        simp [dotClean]
      have htr : trailSeps (c :: cs) =
          trailSeps ((cs.dropWhile fun x => !isSep x).dropWhile isSep) := by
        conv_lhs => rw [hb3, hr]
        rw [hr]
        exact trailSeps_cont _ hr0
      have hlen : ((cs.dropWhile fun x => !isSep x).dropWhile isSep).length ≤ n := by
        have e1 := length_dropWhile_le isSep (cs.dropWhile fun x => !isSep x)
        have e2 := length_dropWhile_le (fun x => !isSep x) cs
        simp only [List.length_cons] at hl
        omega
      simp only [splitLoop]
      rw [if_neg hrest, List.getLast?_concat, List.dropLast_concat]
      rw [ih _ hlen _ r0 rs hr hr0, hdc, htr]
      by_cases hdot : String.mk (c :: (cs.takeWhile fun x => !isSep x)) = "."
      · rw [if_pos (by rw [hdot]), if_pos hdot]
        simp
      · rw [if_neg (by simpa using hdot), if_neg hdot]
        simp

/-- `splitPathInRoot` refines the reference splitter on every nonempty
relative path (one not starting with a separator), for all prefix and
suffix component sequences. -/
theorem splitPathInRoot_spec (s : String) (pre suf : List String)
    (h1 : s.data ≠ []) (h2 : isSep s.data.headI = false) :
    splitPathInRoot s pre suf = .ok (refSplit s.data pre suf) := by
  obtain ⟨c, cs, hcons⟩ := List.exists_cons_of_ne_nil h1
  have hc : isSep c = false := by
    rw [hcons] at h2
    simpa using h2
  have hsplit := splitLoop_spec s.data.length s.data le_rfl pre c cs hcons hc
  have hcomps_ne : comps s.data ≠ [] := by
    rw [hcons]
    exact comps_cons_ne_nil hc
  have hcore_ne : dotClean (comps s.data) ≠ [] := dotClean_ne_nil hcomps_ne
  unfold splitPathInRoot refSplit
  rw [if_neg h1, if_neg (by rw [h2]; simp)]
  simp only [hsplit]
  by_cases hsuf : suf = []
  · subst hsuf
    simp
  · rw [getLast?_append_ne hcore_ne]
    by_cases hlast : (dotClean (comps s.data)).getLast? = some "."
    · rw [if_pos ⟨hsuf, hlast⟩, dropLast_append_ne hcore_ne]
      unfold dropFinalDot
      rw [if_neg hsuf, if_pos hlast]
    · rw [if_neg (by simp [hlast]), if_neg hsuf]
      unfold dropFinalDot
      rw [if_neg hlast]

/-- Equality of `Except` results is decidable (needed for the closed
evaluations below). -/
instance {e a : Type} [DecidableEq e] [DecidableEq a] : DecidableEq (Except e a)
  | .error x, .error y =>
    if h : x = y then isTrue (by rw [h])
    else isFalse (by intro hc; injection hc; contradiction)
  | .error _, .ok _ => isFalse (by intro hc; cases hc)
  | .ok _, .error _ => isFalse (by intro hc; cases hc)
  | .ok x, .ok y =>
    if h : x = y then isTrue (by rw [h])
    else isFalse (by intro hc; injection hc; contradiction)

/-! ### Error model

Structured errors as exposed by the sources: `*PathError` (op, path,
cause), `*LinkError` (op, old, new, cause), and plain `errors.New`
messages (used by `subFS.Glob`'s consistency error). -/

inductive ErrKind where
  | invalid          -- fs.ErrInvalid / os.ErrInvalid
  | notExist         -- fs.ErrNotExist
  | permission       -- fs.ErrPermission
  | unsupportedMode  -- errors.New("unsupported file mode")
  | escapes          -- errPathEscapes
  | tooManySymlinks  -- "too many levels of symbolic links"
  | other (code : Nat)
  deriving DecidableEq, Repr

structure PathErr where
  op : String
  path : String
  kind : ErrKind
  deriving DecidableEq, Repr

structure LinkErr where
  op : String
  old : String
  new : String
  kind : ErrKind
  deriving DecidableEq, Repr

inductive FsError where
  | pathErr (e : PathErr)
  | linkErr (e : LinkErr)
  | simple (msg : String)
  deriving DecidableEq, Repr

/-! ### `Root` and `rootFS` operations (src/src/os/root.go)

The non-excerpted platform layer (`rootOpenFileNolog`, `rootMkdir`,
`rootRename`, ..., reached only after the excerpted validation code)
is abstracted as an oracle `RootUnder` giving each underlying call's
reply; every embedded method also returns the list of underlying
calls it issued. -/

/-- A call issued to the underlying (non-excerpted) Root machinery. -/
inductive RootCall where
  | openAt (name : String)
  | openFileAt (name : String) (flag : Nat) (perm : Nat)
  | mkdirAt (name : String) (perm : Nat)
  | mkdirAllAt (name : String) (perm : Nat)
  | renameAt (old : String) (new : String)
  | linkAt (old : String) (new : String)
  | symlinkAt (old : String) (new : String)
  deriving DecidableEq, Repr

/-- A raw directory read: the entries in the order the underlying
`File.ReadDir(-1)` produced them, plus its error, if any. -/
structure DirEntryM where
  name : List Nat   -- entry name as a byte sequence
  ino : Nat
  deriving DecidableEq, Repr

structure RawDir where
  entries : List DirEntryM
  readErr : Option FsError
  deriving DecidableEq, Repr

/-- Oracle for the underlying Root operations (platform layer). -/
structure RootUnder where
  openRoot : String → Except FsError Nat
  openDir : String → Except FsError RawDir
  openFileU : String → Nat → Nat → Except FsError Nat
  mkdirU : String → Nat → Option FsError
  mkdirAllU : String → Nat → Option FsError
  renameU : String → String → Option FsError
  linkU : String → String → Option FsError
  symlinkU : String → String → Option FsError

/-- `Root.OpenFile` (src/src/os/root.go lines 117–128): FileMode is a
permission word; perm bits outside 0o777 are rejected before any
filesystem access. -/
def RootOpenFile (u : RootUnder) (name : String) (flag perm : Nat) :
    Except FsError Nat × List RootCall :=
  if perm &&& 0o777 ≠ perm then
    (.error (.pathErr ⟨"openat", name, .unsupportedMode⟩), [])
  else
    (u.openFileU name flag perm, [.openFileAt name flag perm])

/-- `Root.Mkdir` (src/src/os/root.go lines 149–154). -/
def RootMkdir (u : RootUnder) (name : String) (perm : Nat) :
    Option FsError × List RootCall :=
  if perm &&& 0o777 ≠ perm then
    (some (.pathErr ⟨"mkdirat", name, .unsupportedMode⟩), [])
  else
    (u.mkdirU name perm, [.mkdirAt name perm])

/-- `Root.MkdirAll` (src/src/os/root.go lines 161–166). -/
def RootMkdirAll (u : RootUnder) (name : String) (perm : Nat) :
    Option FsError × List RootCall :=
  if perm &&& 0o777 ≠ perm then
    (some (.pathErr ⟨"mkdirat", name, .unsupportedMode⟩), [])
  else
    (u.mkdirAllU name perm, [.mkdirAllAt name perm])

/-- `rootFS.Open` (src/src/os/root.go lines 365–375). -/
def rootFSOpen (u : RootUnder) (name : String) :
    Except FsError Nat × List RootCall :=
  if ¬ isValidRootFSPath name then
    (.error (.pathErr ⟨"open", name, .invalid⟩), [])
  else
    (u.openRoot name, [.openAt name])

/-- `rootFS.Rename` (src/src/os/root.go lines 438–444), including its
validation condition `!(isValidRootFSPath(oldname) ||
isValidRootFSPath(newname))` exactly as written in the source. -/
def rootFSRename (u : RootUnder) (oldname newname : String) :
    Option FsError × List RootCall :=
  if ¬ (isValidRootFSPath oldname || isValidRootFSPath newname) then
    (some (.linkErr ⟨"rename", oldname, newname, .invalid⟩), [])
  else
    (u.renameU oldname newname, [.renameAt oldname newname])

/-- `rootFS.Link` (src/src/os/root.go lines 502–511). -/
def rootFSLink (u : RootUnder) (oldname newname : String) :
    Option FsError × List RootCall :=
  if ¬ isValidRootFSPath oldname then
    (some (.pathErr ⟨"link", oldname, .invalid⟩), [])
  else if ¬ isValidRootFSPath newname then
    (some (.pathErr ⟨"link", newname, .invalid⟩), [])
  else
    (u.linkU oldname newname, [.linkAt oldname newname])

/-- `rootFS.Symlink` (src/src/os/root.go lines 513–522). -/
def rootFSSymlink (u : RootUnder) (oldname newname : String) :
    Option FsError × List RootCall :=
  if ¬ isValidRootFSPath oldname then
    (some (.pathErr ⟨"symlink", oldname, .invalid⟩), [])
  else if ¬ isValidRootFSPath newname then
    (some (.pathErr ⟨"symlink", newname, .invalid⟩), [])
  else
    (u.symlinkU oldname newname, [.symlinkAt oldname newname])

/-! ### Byte-wise ordering and `rootFS.ReadDir` -/

/-- `internal/bytealg.CompareString`: lexicographic byte-wise
comparison. -/
def byteCmp : List Nat → List Nat → Ordering
  | [], [] => .eq
  | [], _ :: _ => .lt
  | _ :: _, [] => .gt
  | a :: as, b :: bs => if a < b then .lt else if b < a then .gt else byteCmp as bs

/-- Byte-wise ascending order on directory entries (the order
`rootFS.ReadDir`'s `SortFunc` establishes). -/
def entryLE (a b : DirEntryM) : Prop := byteCmp a.name b.name ≠ Ordering.gt

instance : DecidableRel entryLE := fun a b => by
  unfold entryLE
  infer_instance

/-- `rootFS.ReadDir` (src/src/os/root.go lines 393–415): validate,
open the directory, collect the raw entries, then sort them by name.
Returned as Go's `([]DirEntry, error)` pair (nil list ↦ `[]`). -/
def rootFSReadDir (u : RootUnder) (name : String) :
    List DirEntryM × Option FsError :=
  if ¬ isValidRootFSPath name then
    ([], some (.pathErr ⟨"readdir", name, .invalid⟩))
  else
    match u.openDir name with
    | .error e => ([], some e)
    | .ok d => (List.insertionSort entryLE d.entries, d.readErr)

/-! ### `subFS`, the prefixed-subtree wrapper (src/src/io/fs/openfile.go)

The wrapped store `f.fsys` is abstracted as an oracle `SubUnder`.
`path.Join` is a non-excerpted collaborator; it is modelled from the
spec (§4.3: the wrapper rewrites the incoming relative name to
`prefix + "/" + name`), restricted to the already-`ValidPath`-clean
arguments the wrapper feeds it (where joining is plain concatenation,
with `"."` denoting the directory itself on either side). -/

/-- Modelled from the spec: `path.Join(dir, name)` for clean inputs. -/
def joinPath (dir name : String) : String :=
  if name = "." then dir
  else if dir = "." then name
  else dir ++ "/" ++ name

/-- The `subFS` wrapper state: the fixed prefix directory. -/
structure SubT where
  dir : String
  deriving DecidableEq, Repr

/-- Oracle for the wrapped store's replies (file handles and stat
payloads are opaque naturals). -/
structure SubUnder where
  openU : String → Except FsError Nat
  statU : String → Except FsError Nat
  readLinkU : String → Except FsError String
  globU : String → List String × Option FsError

/-- `subFS.fullName` (src/src/io/fs/openfile.go lines 153–158). -/
def fullName (f : SubT) (op name : String) : Except FsError String :=
  if ¬ ValidPath name then .error (.pathErr ⟨op, name, .invalid⟩)
  else .ok (joinPath f.dir name)

/-- `subFS.shorten` (src/src/io/fs/openfile.go lines 160–169): maps a
name that should start with `f.dir` back to the suffix after `f.dir`
(Go's byte indexing modelled by character indexing). -/
def shorten (dir name : String) : Option String :=
  if name = dir then some "."
  else if name.data.length ≥ dir.data.length + 2 ∧
      name.data[dir.data.length]? = some '/' ∧
      name.data.take dir.data.length = dir.data then
    some (String.mk (name.data.drop (dir.data.length + 1)))
  else none

/-- `subFS.fixErr` (src/src/io/fs/openfile.go lines 171–179): shortens
any reported name in a `PathError` by stripping `f.dir`; mismatching
paths, and non-path errors, are left unchanged. -/
def fixErr (f : SubT) (e : FsError) : FsError :=
  match e with
  | .pathErr p =>
    match shorten f.dir p.path with
    | some short => .pathErr ⟨p.op, short, p.kind⟩
    | none => .pathErr p
  | e => e

/-- `subFS.Open` (src/src/io/fs/openfile.go lines 181–188): the
returned error goes through `fixErr`. -/
def subFSOpen (u : SubUnder) (f : SubT) (name : String) : Except FsError Nat :=
  match fullName f "open" name with
  | .error e => .error e
  | .ok full =>
    match u.openU full with
    | .ok v => .ok v
    | .error e => .error (fixErr f e)

/-- `subFS.Stat` (src/src/io/fs/openfile.go lines 208–214): the result
of `Stat(f.fsys, full)` is returned directly — unlike `Open`,
`ReadDir` and `ReadFile`, no `fixErr` is applied. -/
def subFSStat (u : SubUnder) (f : SubT) (name : String) : Except FsError Nat :=
  match fullName f "read" name with
  | .error e => .error e
  | .ok full => u.statU full

/-- `subFS.ReadLink` (src/src/io/fs/openfile.go lines 234–244): on
success the wrapped store's target string is returned unchanged. -/
def subFSReadLink (u : SubUnder) (f : SubT) (name : String) :
    Except FsError String :=
  match fullName f "readlink" name with
  | .error e => .error e
  | .ok full =>
    match u.readLinkU full with
    | .error e => .error (fixErr f e)
    | .ok target => .ok target

/-- The shortening loop of `subFS.Glob` (lines 269–275): strips the
prefix from every match, failing at the first match `shorten` cannot
handle. -/
def shortenAll (dir : String) : List String → Option (List String)
  | [] => some []
  | m :: ms =>
    match shorten dir m with
    | none => none
    | some s => (shortenAll dir ms).map (s :: ·)

/-- `subFS.Glob` (src/src/io/fs/openfile.go lines 258–277); `matchOk`
models the non-excerpted `path.Match` well-formedness check. Returned
as Go's `([]string, error)` pair (nil list ↦ `[]`). -/
def subFSGlob (u : SubUnder) (f : SubT) (matchOk : String → Bool)
    (pattern : String) : List String × Option FsError :=
  if ¬ matchOk pattern then ([], some (.simple "bad pattern"))
  else if pattern = "." then (["."], none)
  else
    -- full := f.dir + "/" + pattern; (list, err) := Glob(f.fsys, full)
    match shortenAll f.dir (u.globU (f.dir ++ "/" ++ pattern)).1 with
    | none => ([], some (.simple "invalid result from inner fsys Glob"))
    | some l => (l, (u.globU (f.dir ++ "/" ++ pattern)).2.map (fixErr f))

/-- `subFS.Rename` (src/src/io/fs/openfile.go lines 306–318): both
names are validated before the wrapped store is called. -/
def subFSRename (rename : String → String → Option FsError) (f : SubT)
    (oldname newname : String) : Option FsError × List (String × String) :=
  match fullName f "rename" oldname with
  | .error e => (some e, [])
  | .ok fullOld =>
    match fullName f "rename" newname with
    | .error e => (some e, [])
    | .ok fullNew =>
      ((rename fullOld fullNew).map (fixErr f), [(fullOld, fullNew)])

/-! ### `Sub` and `subFS.Sub` (src/src/io/fs/openfile.go lines 121–132
and 279–288)

In the shallow embedding a store value is either a base store (not
implementing `SubFS`) or a `subFS` wrapper; `=` on these values is
object identity (returning the very same store, no new wrapper). -/

inductive FSV where
  | base (id : Nat)
  | sub (fsys : FSV) (dir : String)
  deriving DecidableEq, Repr

/-- `subFS.Sub`: `"."` returns the wrapper itself; otherwise the
prefixes are concatenated (no nested wrapper objects). -/
def subFSSub (fsys : FSV) (dir newDir : String) : Except FsError FSV :=
  if newDir = "." then .ok (.sub fsys dir)
  else if ¬ ValidPath newDir then .error (.pathErr ⟨"sub", newDir, .invalid⟩)
  else .ok (.sub fsys (joinPath dir newDir))

/-- `fs.Sub`: validate `dir`, return `fsys` unchanged for `"."`,
delegate to `SubFS` implementers (here: `subFS` values), else wrap. -/
def Sub (fsys : FSV) (dir : String) : Except FsError FSV :=
  if ¬ ValidPath dir then .error (.pathErr ⟨"sub", dir, .invalid⟩)
  else if dir = "." then .ok fsys
  else
    match fsys with
    | .sub f d => subFSSub f d dir
    | .base i => .ok (.sub (.base i) dir)

/-! ### Confined-root resolution engine (C4)

Modelled from the spec: the component-by-component resolution loop
(`root_openat.go`'s `doInRoot`, not among the excerpted sources; spec
§3 "Resolution state" and §4.2 "Resolution algorithm"): a remaining
component queue, a symlink-follow counter bounded by `rootMaxSymlinks`
(the counter strictly increases per symlink followed and the call
fails once it exceeds the maximum), absolute symlink targets rejected
as escapes, and relative targets spliced into the remaining queue.
The constant `rootMaxSymlinks = 8` is from src/src/os/root.go lines
72–77. The definition is total (accepted by termination checking):
resolution never loops forever. -/

def rootMaxSymlinks : Nat := 8

inductive FsEntry where
  | dir
  | file
  | symlink (target : String)
  deriving DecidableEq, Repr

/-- A symbolic filesystem for the resolution model: what each
component name currently resolves to beneath the root. -/
structure ResolveFS where
  lookup : String → Option FsEntry

inductive ResolveErr where
  | notFound
  | notADir
  | escapes
  | tooManySymlinks
  deriving DecidableEq, Repr

/-- Modelled from the spec (§4.2): one resolution pass. Returns the
outcome and the number of symlink follows performed. -/
def resolveLoop (fs : ResolveFS) (count : Nat) (parts : List String) :
    Except ResolveErr Unit × Nat :=
  match parts with
  | [] => (.ok (), count)
  | c :: rest =>
    match fs.lookup c with
    | none => (.error .notFound, count)
    | some .dir => resolveLoop fs count rest
    | some .file => if rest = [] then (.ok (), count) else (.error .notADir, count)
    | some (.symlink t) =>
      if count + 1 > rootMaxSymlinks then (.error .tooManySymlinks, count)
      else if t.data ≠ [] ∧ isSep t.data.headI then (.error .escapes, count)
      else resolveLoop fs (count + 1) (comps t.data ++ rest)
termination_by (rootMaxSymlinks + 1 - count, parts.length)
decreasing_by
  · apply Prod.Lex.right
    simp
  · apply Prod.Lex.left
    omega

/-- Resolution of a component queue starting with zero follows. -/
def resolveInRoot (fs : ResolveFS) (parts : List String) :
    Except ResolveErr Unit × Nat :=
  resolveLoop fs 0 parts

/-! ### Sample oracles used by the closed evaluations -/

/-- A sample underlying-Root oracle on which every call succeeds. -/
def uSample : RootUnder where
  openRoot := fun _ => .ok 0
  openDir := fun _ => .ok ⟨[], none⟩
  openFileU := fun _ _ _ => .ok 0
  mkdirU := fun _ _ => none
  mkdirAllU := fun _ _ => none
  renameU := fun _ _ => none
  linkU := fun _ _ => none
  symlinkU := fun _ _ => none

/-- An underlying-Root oracle whose directory read returns two entries
(names are the byte sequences "2" and "1") in descending order. -/
def uReadDir : RootUnder where
  openRoot := fun _ => .ok 0
  openDir := fun _ => .ok ⟨[⟨[50], 0⟩, ⟨[49], 1⟩], none⟩
  openFileU := fun _ _ _ => .ok 0
  mkdirU := fun _ _ => none
  mkdirAllU := fun _ _ => none
  renameU := fun _ _ => none
  linkU := fun _ _ => none
  symlinkU := fun _ _ => none

/-- A wrapped store that fails `Stat` and `Open` with a `PathError`
carrying the (prefixed) path it was called with. -/
def statStore : SubUnder where
  openU := fun full => .error (.pathErr ⟨"open", full, .notExist⟩)
  statU := fun full => .error (.pathErr ⟨"stat", full, .notExist⟩)
  readLinkU := fun _ => .ok ""
  globU := fun _ => ([], none)

/-- A wrapped store whose `ReadLink` reports an absolute target. -/
def linkStore : SubUnder where
  openU := fun _ => .ok 0
  statU := fun _ => .ok 0
  readLinkU := fun _ => .ok "/etc/passwd"
  globU := fun _ => ([], none)

/-- A wrapped store whose `Glob` returns two prefixed matches. -/
def globStore : SubUnder where
  openU := fun _ => .ok 0
  statU := fun _ => .ok 0
  readLinkU := fun _ => .ok ""
  globU := fun _ => (["x/1.txt", "x/2.txt"], none)

/-- The everywhere-cyclic symbolic filesystem: every name is a symlink
to itself. -/
def fsCyc : ResolveFS := ⟨fun n => some (.symlink n)⟩

/-! ### Helper lemmas for the resolution engine (C4) -/

/-- The follow counter never exceeds the bound: starting from any
`count ≤ rootMaxSymlinks`, resolution performs at most
`rootMaxSymlinks` follows in total. -/
theorem resolveLoop_follows_le (fs : ResolveFS) :
    ∀ (k n count : Nat) (parts : List String),
      rootMaxSymlinks + 1 - count ≤ k → parts.length ≤ n →
      count ≤ rootMaxSymlinks →
      (resolveLoop fs count parts).2 ≤ rootMaxSymlinks := by
  intro k
  induction k with
  | zero =>
    intro n count parts hk _ hc
    omega
  | succ k ihk =>
    intro n
    induction n with
    | zero =>
      intro count parts _ hn hc
      have hp : parts = [] := List.length_eq_zero.mp (Nat.le_zero.mp hn)
      subst hp
      simpa [resolveLoop] using hc
    | succ n ihn =>
      intro count parts hk hn hc
      cases parts with
      | nil => simpa [resolveLoop] using hc
      | cons c rest =>
        have hrest : rest.length ≤ n := by
          simp only [List.length_cons] at hn
          omega
        cases hl : fs.lookup c with
        | none => simp [resolveLoop, hl, hc]
        | some e =>
          cases e with
          | dir =>
            simp only [resolveLoop, hl]
            exact ihn count rest hk hrest hc
          | file =>
            simp only [resolveLoop, hl]
            split <;> simpa using hc
          | symlink t =>
            simp only [resolveLoop, hl]
            by_cases hg : count + 1 > rootMaxSymlinks
            · simpa [hg] using hc
            · rw [if_neg hg]
              by_cases hesc : t.data ≠ [] ∧ isSep t.data.headI
              · simpa [hesc] using hc
              · rw [if_neg hesc]
                exact ihk (comps t.data ++ rest).length (count + 1) _ (by omega) le_rfl
                  (by omega)

/-- A nonempty, separator-free string is a single raw component. -/
theorem comps_no_sep (t : String) (hne : t.data ≠ [])
    (hns : ∀ c ∈ t.data, isSep c = false) : comps t.data = [t] := by
  obtain ⟨c, cs, hcons⟩ := List.exists_cons_of_ne_nil hne
  have h := compsGo_last t.data [] [] (by simpa using hns) (by simp) (by simpa using hne)
  rw [List.append_nil] at h
  rw [comps, h]
  rfl

/-- On a self-loop symlink, resolution fails with the
too-many-symlink-levels error after exactly `rootMaxSymlinks`
follows. -/
theorem resolveLoop_cycle (fs : ResolveFS) (t : String)
    (hfs : fs.lookup t = some (.symlink t)) (hne : t.data ≠ [])
    (hns : ∀ c ∈ t.data, isSep c = false) :
    ∀ (k count : Nat), count + k = rootMaxSymlinks →
      resolveLoop fs count [t] = (.error .tooManySymlinks, rootMaxSymlinks) := by
  intro k
  induction k with
  | zero =>
    intro count h
    have hc : count = rootMaxSymlinks := by omega
    subst hc
    simp [resolveLoop, hfs]
  | succ k ih =>
    intro count h
    have hsep : isSep t.data.headI = false := by
      obtain ⟨c, cs, hcons⟩ := List.exists_cons_of_ne_nil hne
      rw [hcons]
      exact hns c (by rw [hcons]; simp)
    simp only [resolveLoop, hfs]
    rw [if_neg (by omega), if_neg (by simp [hsep]), comps_no_sep t hne hns]
    exact ih (count + 1) (by omega)

/-! ### Helper lemmas for byte-wise entry ordering (C9) -/

theorem byteCmp_gt_asymm : ∀ (a b : List Nat), byteCmp a b = .gt → byteCmp b a ≠ .gt := by
  intro a
  induction a with
  | nil =>
    intro b h
    cases b <;> simp [byteCmp] at h
  | cons x xs ih =>
    intro b h
    cases b with
    | nil => simp [byteCmp]
    | cons y ys =>
      simp only [byteCmp] at h ⊢
      by_cases h1 : x < y
      · simp [h1] at h
      · by_cases h2 : y < x
        · simp [h2]
        · simp only [h1, h2, if_false] at h ⊢
          exact ih ys h

theorem byteCmp_le_trans : ∀ (a b c : List Nat),
    byteCmp a b ≠ .gt → byteCmp b c ≠ .gt → byteCmp a c ≠ .gt := by
  intro a
  induction a with
  | nil =>
    intro b c _ _
    cases c <;> simp [byteCmp]
  | cons x xs ih =>
    intro b c hab hbc
    cases b with
    | nil => simp [byteCmp] at hab
    | cons y ys =>
      cases c with
      | nil => simp [byteCmp] at hbc
      | cons z zs =>
        simp only [byteCmp] at hab hbc ⊢
        by_cases hxy : x < y
        · by_cases hyz : y < z
          · simp [show x < z by omega]
          · by_cases hzy : z < y
            · simp [hyz, hzy] at hbc
            · simp [show x < z by omega]
        · by_cases hyx : y < x
          · simp [hxy, hyx] at hab
          · by_cases hyz : y < z
            · simp [show x < z by omega]
            · by_cases hzy : z < y
              · simp [hyz, hzy] at hbc
              · have hxz : ¬ x < z := by omega
                have hzx : ¬ z < x := by omega
                simp only [hxz, hzx, if_false]
                simp only [hxy, hyx, if_false] at hab
                simp only [hyz, hzy, if_false] at hbc
                exact ih ys zs hab hbc

instance : IsTotal DirEntryM entryLE :=
  ⟨by
    intro a b
    by_cases h : byteCmp a.name b.name = .gt
    · exact Or.inr (byteCmp_gt_asymm _ _ h)
    · exact Or.inl h⟩

instance : IsTrans DirEntryM entryLE :=
  ⟨fun _ _ _ hab hbc => byteCmp_le_trans _ _ _ hab hbc⟩

/-! ### Helper lemmas for `shorten` (C7) -/

theorem data_append3 (dir mid rest : String) :
    (dir ++ mid ++ rest).data = dir.data ++ mid.data ++ rest.data := by
  rfl

/-- `shorten` strips exactly the leading `dir + "/"`. -/
theorem shorten_strips (dir rest : String) (hne : rest.data ≠ []) :
    shorten dir (dir ++ "/" ++ rest) = some rest := by
  have hdata : (dir ++ "/" ++ rest).data = dir.data ++ (['/'] ++ rest.data) := by
    rw [data_append3]
    simp
  have hrlen : 1 ≤ rest.data.length := by
    cases hr : rest.data with
    | nil => exact absurd hr hne
    | cons a as => simp
  have hlen : (dir ++ "/" ++ rest).data.length = dir.data.length + 1 + rest.data.length := by
    rw [hdata]
    simp
    omega
  have hneq : (dir ++ "/" ++ rest) ≠ dir := by
    intro h
    have h2 : (dir ++ "/" ++ rest).data.length = dir.data.length := by rw [h]
    rw [hlen] at h2
    omega
  have hget : (dir ++ "/" ++ rest).data[dir.data.length]? = some '/' := by
    rw [hdata, List.getElem?_append_right (le_refl _)]
    simp
  have htake : (dir ++ "/" ++ rest).data.take dir.data.length = dir.data := by
    rw [hdata]
    exact List.take_left dir.data _
  have hdrop : (dir ++ "/" ++ rest).data.drop (dir.data.length + 1) = rest.data := by
    rw [hdata, ← List.append_assoc]
    exact List.drop_left' (by simp)
  unfold shorten
  rw [if_neg hneq, if_pos ⟨by rw [hlen]; omega, hget, htake⟩, hdrop]

theorem shortenAll_none_iff (dir : String) :
    ∀ (ms : List String), shortenAll dir ms = none ↔ ∃ m ∈ ms, shorten dir m = none := by
  intro ms
  induction ms with
  | nil => simp [shortenAll]
  | cons m ms ih =>
    simp only [shortenAll]
    cases hm : shorten dir m with
    | none => simp [hm]
    | some s =>
      cases hrest : shortenAll dir ms with
      | none =>
        simp only [Option.map_none]
        constructor
        · intro _
          obtain ⟨m2, hmem, hnone⟩ := ih.mp hrest
          exact ⟨m2, by simp [hmem], hnone⟩
        · intro _; rfl
      | some l =>
        simp only [Option.map_some]
        constructor
        · intro hcontra; cases hcontra
        · rintro ⟨m2, hmem, hnone⟩
          rcases List.mem_cons.mp hmem with rfl | hmem2
          · rw [hm] at hnone; cases hnone
          · have := ih.mpr ⟨m2, hmem2, hnone⟩
            rw [hrest] at this
            cases this

/-! ### Claim theorems -/

/-- C1 (refuting evaluation): `rootFS.Rename`'s validation condition
`!(isValidRootFSPath(oldname) || isValidRootFSPath(newname))` errors
only when BOTH names are invalid. With the invalid oldname `".."` and
the valid newname `"a"`, it issues the underlying rename call instead
of failing with an invalid-path error and no call — contradicting the
claim — while `rootFS.Link`, which validates each name separately,
rejects the same pair with no underlying call. -/
theorem c1_rootFS_rename_missed_validation :
    isValidRootFSPath ".." = false ∧
    isValidRootFSPath "a" = true ∧
    rootFSRename uSample ".." "a" = (none, [.renameAt ".." "a"]) ∧
    rootFSLink uSample ".." "a" = (some (.pathErr ⟨"link", "..", .invalid⟩), []) := by
  decide

/-- C2 (refuting evaluation): `subFS.Stat` returns the wrapped store's
error without `fixErr`, so when the wrapped store fails with a
`PathError` carrying the prefixed name `"x/y"`, the caller of `Stat`
sees path `"x/y"` — not the supplied `"y"` (which `shorten` would have
produced, and which the caller of `Open` does see). -/
theorem c2_subFS_stat_error_path_not_shortened :
    subFSStat statStore ⟨"x"⟩ "y" = .error (.pathErr ⟨"stat", "x/y", .notExist⟩) ∧
    shorten "x" "x/y" = some "y" ∧
    subFSOpen statStore ⟨"x"⟩ "y" = .error (.pathErr ⟨"open", "y", .notExist⟩) := by
  decide

/-- C3 counterexample: `splitPathInRoot` accepts the leading `".."` of
`"../escape.txt"` into the resolved component sequence with no error,
so `".."` components are not rejected at name splitting/validation for
direct `Root` operations. -/
theorem c3_cx_splitPathInRoot_accepts_dotdot :
    splitPathInRoot "../escape.txt" [] [] = .ok (["..", "escape.txt"], "") ∧
    ".." ∈ ["..", "escape.txt"] := by
  refine ⟨?_, by decide⟩
  simp [splitPathInRoot, splitLoop, isSep]

/-- C3 amended: on the confined root's FS wrapper, every name whose
leading component is `".."` (either `".."` itself or `"../" ++ r`)
fails `isValidRootFSPath` and `rootFS.Open` returns an invalid-path
error without any underlying call; for direct `Root` operations,
`splitPathInRoot` passes `".."` components through to the resolution
engine instead. -/
theorem c3_amended_rootFS_rejects_leading_dotdot (u : RootUnder) (r : String) :
    isValidRootFSPath (String.mk ('.' :: '.' :: '/' :: r.data)) = false ∧
    rootFSOpen u (String.mk ('.' :: '.' :: '/' :: r.data)) =
      (.error (.pathErr ⟨"open", String.mk ('.' :: '.' :: '/' :: r.data), .invalid⟩), []) ∧
    isValidRootFSPath ".." = false ∧
    rootFSOpen u ".." = (.error (.pathErr ⟨"open", "..", .invalid⟩), []) := by
  have hpe : pathElems ('.' :: '.' :: '/' :: r.data) = ['.', '.'] :: pathElems r.data := by
    simp [pathElems, isSep]
  have hvl : validPathL ('.' :: '.' :: '/' :: r.data) = false := by
    unfold validPathL
    rw [if_neg (by simp), hpe]
    simp
  have hval : isValidRootFSPath (String.mk ('.' :: '.' :: '/' :: r.data)) = false := hvl
  have hval2 : isValidRootFSPath ".." = false := by decide
  refine ⟨hval, ?_, hval2, ?_⟩
  · simp [rootFSOpen, hval]
  · simp [rootFSOpen, hval2]

/-- C4: the confined-root resolution engine (modelled from the spec;
it is a total function, so resolution always terminates) performs at
most `rootMaxSymlinks = 8` symlink follows on any input, and on a
cyclic (self-loop) symlink it fails with the too-many-symlink-levels
error after exactly 8 follows. -/
theorem c4_symlink_follows_bounded :
    rootMaxSymlinks = 8 ∧
    (∀ (fs : ResolveFS) (parts : List String),
      (resolveInRoot fs parts).2 ≤ rootMaxSymlinks) ∧
    (∀ (fs : ResolveFS) (t : String),
      fs.lookup t = some (.symlink t) → t.data ≠ [] →
      (∀ c ∈ t.data, isSep c = false) →
      resolveInRoot fs [t] = (.error .tooManySymlinks, rootMaxSymlinks)) := by
  refine ⟨rfl, ?_, ?_⟩
  · intro fs parts
    exact resolveLoop_follows_le fs (rootMaxSymlinks + 1) parts.length 0 parts
      (by omega) le_rfl (by omega)
  · intro fs t hfs hne hns
    exact resolveLoop_cycle fs t hfs hne hns rootMaxSymlinks 0 (by omega)

/-- C4 witness: on the everywhere-cyclic filesystem, resolving the
single component `"link"` fails with the too-many-symlink-levels error
after exactly `rootMaxSymlinks` follows. -/
theorem c4_witness :
    resolveInRoot fsCyc ["link"] = (.error .tooManySymlinks, rootMaxSymlinks) :=
  c4_symlink_follows_bounded.2.2 fsCyc "link" rfl (by decide) (by decide)

/-- C5: `Root.OpenFile`, `Root.Mkdir` and `Root.MkdirAll` reject any
permission word with bits outside 0o777 with an unsupported-file-mode
error, issuing no underlying call. -/
theorem c5_invalid_perm_rejected (u : RootUnder) (name : String) (flag perm : Nat)
    (h : perm &&& 0o777 ≠ perm) :
    RootOpenFile u name flag perm =
      (.error (.pathErr ⟨"openat", name, .unsupportedMode⟩), []) ∧
    RootMkdir u name perm = (some (.pathErr ⟨"mkdirat", name, .unsupportedMode⟩), []) ∧
    RootMkdirAll u name perm =
      (some (.pathErr ⟨"mkdirat", name, .unsupportedMode⟩), []) := by
  refine ⟨?_, ?_, ?_⟩ <;> simp [RootOpenFile, RootMkdir, RootMkdirAll, h]

/-- C5 witness: perm 0o10000 (the sticky/dir bit region) is rejected. -/
theorem c5_witness :
    RootOpenFile uSample "f" 0 4096 =
      (.error (.pathErr ⟨"openat", "f", .unsupportedMode⟩), []) ∧
    RootMkdir uSample "f" 4096 =
      (some (.pathErr ⟨"mkdirat", "f", .unsupportedMode⟩), []) :=
  ⟨(c5_invalid_perm_rejected uSample "f" 0 4096 (by decide)).1,
   (c5_invalid_perm_rejected uSample "f" 0 4096 (by decide)).2.1⟩

/-- C6: on every nonempty relative path, `splitPathInRoot` equals the
reference splitter: prefix, then the raw components with `"."` dropped
except in final position (a final `"."` also dropped when a non-empty
suffix is appended), then the suffix, with the separators following
the final component returned verbatim as the trailing-separator
text. -/
theorem c6_split_drops_dots (s : String) (pre suf : List String)
    (h1 : s.data ≠ []) (h2 : isSep s.data.headI = false) :
    splitPathInRoot s pre suf = .ok (refSplit s.data pre suf) :=
  splitPathInRoot_spec s pre suf h1 h2

/-- C6 witness: `"a/./b/c"` splits exactly like `"a/b/c"`; trailing
separators are returned verbatim; a trailing `"."` is dropped when a
suffix is appended. -/
theorem c6_witness :
    splitPathInRoot "a/./b/c" [] [] = splitPathInRoot "a/b/c" [] [] ∧
    splitPathInRoot "a/b//" [] [] = .ok (["a", "b"], "//") ∧
    splitPathInRoot "a/." [] ["x"] = .ok (["a", "x"], "") := by
  refine ⟨?_, ?_, ?_⟩
  · rw [c6_split_drops_dots "a/./b/c" [] [] (by decide) (by decide),
      c6_split_drops_dots "a/b/c" [] [] (by decide) (by decide)]
    decide
  · rw [c6_split_drops_dots "a/b//" [] [] (by decide) (by decide)]
    decide
  · rw [c6_split_drops_dots "a/." [] ["x"] (by decide) (by decide)]
    decide

/-- C7: for any well-formed pattern other than `"."`, `subFS.Glob`
strips the leading `dir + "/"` from every match the wrapped store
returns (conjunct 4 states the stripping equation); if every match
shortens, it returns exactly the shortened list, and if any match does
not begin with the prefix (`shorten` fails), it returns the
internal-consistency error and no result list. -/
theorem c7_glob_strips_or_errors (u : SubUnder) (f : SubT) (matchOk : String → Bool)
    (pattern : String) (hm : matchOk pattern = true) (hp : pattern ≠ ".") :
    (∀ l, shortenAll f.dir (u.globU (f.dir ++ "/" ++ pattern)).1 = some l →
      subFSGlob u f matchOk pattern =
        (l, (u.globU (f.dir ++ "/" ++ pattern)).2.map (fixErr f))) ∧
    (shortenAll f.dir (u.globU (f.dir ++ "/" ++ pattern)).1 = none →
      subFSGlob u f matchOk pattern =
        ([], some (.simple "invalid result from inner fsys Glob"))) ∧
    (∀ ms : List String, shortenAll f.dir ms = none ↔ ∃ m ∈ ms, shorten f.dir m = none) ∧
    (∀ rest : String, rest.data ≠ [] → shorten f.dir (f.dir ++ "/" ++ rest) = some rest) := by
  refine ⟨?_, ?_, shortenAll_none_iff f.dir, fun rest h => shorten_strips f.dir rest h⟩
  · intro l hsome
    unfold subFSGlob
    rw [if_neg (by simp [hm]), if_neg hp, hsome]
  · intro hnone
    unfold subFSGlob
    rw [if_neg (by simp [hm]), if_neg hp, hnone]

/-- C7 witness: globbing over a store at prefix `"x"` whose raw
matches are `"x/1.txt"`, `"x/2.txt"` yields `["1.txt", "2.txt"]`. -/
theorem c7_witness :
    subFSGlob globStore ⟨"x"⟩ (fun _ => true) "*.txt" = (["1.txt", "2.txt"], none) := by
  have h := (c7_glob_strips_or_errors globStore ⟨"x"⟩ (fun _ => true) "*.txt" rfl
    (by decide)).1 ["1.txt", "2.txt"] (by decide)
  simpa using h

/-- C8: deriving a subtree at `"."` is the identity: `Sub` returns the
very store value it was given (no new wrapper), and `subFS.Sub` on
`"."` returns the wrapper itself. -/
theorem c8_sub_dot_identity :
    (∀ fsys : FSV, Sub fsys "." = .ok fsys) ∧
    (∀ (fsys : FSV) (dir : String), subFSSub fsys dir "." = .ok (.sub fsys dir)) := by
  constructor
  · intro fsys
    unfold Sub
    rw [if_neg (by decide), if_pos rfl]
  · intro fsys dir
    unfold subFSSub
    rw [if_pos rfl]

/-- C9: on a valid name whose directory opens successfully,
`rootFS.ReadDir` returns exactly the raw collected entries sorted (by
insertion sort over the byte-wise order `entryLE`): the result is
`Sorted` in byte-wise ascending name order and is a permutation of the
raw entries, with the sort applied after collection. -/
theorem c9_readdir_sorted (u : RootUnder) (name : String) (d : RawDir)
    (hv : isValidRootFSPath name = true) (ho : u.openDir name = .ok d) :
    rootFSReadDir u name = (List.insertionSort entryLE d.entries, d.readErr) ∧
    (rootFSReadDir u name).1.Sorted entryLE ∧
    (rootFSReadDir u name).1.Perm d.entries := by
  have h1 : rootFSReadDir u name = (List.insertionSort entryLE d.entries, d.readErr) := by
    unfold rootFSReadDir
    rw [if_neg (by simp [hv]), ho]
  exact ⟨h1, by rw [h1]; exact List.sorted_insertionSort entryLE d.entries,
    by rw [h1]; exact List.perm_insertionSort entryLE d.entries⟩

/-- C9 witness: entries returned as "2", "1" by the raw read come back
as "1", "2". -/
theorem c9_witness :
    rootFSReadDir uReadDir "d" = ([⟨[49], 1⟩, ⟨[50], 0⟩], none) ∧
    (rootFSReadDir uReadDir "d").1.Sorted entryLE := by
  have h := c9_readdir_sorted uReadDir "d" ⟨[⟨[50], 0⟩, ⟨[49], 1⟩], none⟩ (by decide) rfl
  refine ⟨?_, h.2.1⟩
  rw [h.1]
  decide

/-- C10: whenever `subFS.ReadLink` succeeds, the returned target is
exactly the string the wrapped store returned — the prefix is neither
prepended nor stripped, even for absolute targets. -/
theorem c10_readlink_unchanged (u : SubUnder) (f : SubT) (name target : String)
    (hv : ValidPath name = true)
    (ht : u.readLinkU (joinPath f.dir name) = .ok target) :
    subFSReadLink u f name = .ok target := by
  have hf : fullName f "readlink" name = .ok (joinPath f.dir name) := by
    unfold fullName
    rw [if_neg (by simp [hv])]
  unfold subFSReadLink
  rw [hf]
  simp [ht]

/-- C10 witness: the absolute target `"/etc/passwd"` is returned
unchanged through the wrapper at prefix `"x"`. -/
theorem c10_witness :
    subFSReadLink linkStore ⟨"x"⟩ "y" = .ok "/etc/passwd" :=
  c10_readlink_unchanged linkStore ⟨"x"⟩ "y" "/etc/passwd" (by decide) rfl

end GoFS
